import Mathlib

/-!
Verification of the git-stats repository analyzer (TypeScript sources
`src/analyzer.ts`, `src/multi.ts`, `src/types.ts`) against its natural
language specification.

Strings are modelled as `List Char` (the TypeScript code manipulates
JavaScript strings character-wise through regexes, `split`, `trim`,
`replace` and slicing).  JavaScript `undefined` resulting from array
destructuring is modelled as `Option.none`.  Each definition carries a
comment naming the source construct it embeds.
-/

namespace GitStats

/-- Embeds matching a literal pattern at the head of a string:
`matchLit pat l = some rest` iff `l = pat ++ rest`.  This is the basic
building block used for the literal parts of the regexes in
`analyzer.ts` and for `String.prototype.replace` with a plain-string
pattern. -/
def matchLit : List Char → List Char → Option (List Char)
  | [], l => some l
  | _ :: _, [] => none
  | p :: ps, c :: cs => if c = p then matchLit ps cs else none

/-- JavaScript `String.prototype.replace(pat, rep)` with a plain-string
`pat` replaces only the first occurrence (leftmost), or returns the
string unchanged when `pat` does not occur. -/
def replaceFirst (pat rep : List Char) : List Char → List Char
  | [] => []
  | c :: t =>
    match matchLit pat (c :: t) with
    | some rest => rep ++ rest
    | none => c :: replaceFirst pat rep t

/-- Whitespace characters recognised by JavaScript `String.prototype.trim`
(the ASCII ones; the URLs and git output handled by the program contain
no exotic Unicode whitespace). -/
def wsChar (c : Char) : Bool :=
  c = ' ' || c = '\t' || c = '\n' || c = '\r' || c = '\x0b' || c = '\x0c'

/-- JavaScript `String.prototype.trim`: drop leading and trailing
whitespace. -/
def jsTrimL (l : List Char) : List Char :=
  ((l.dropWhile wsChar).reverse.dropWhile wsChar).reverse

/-! ### URL parser (`parseGitUrl`, analyzer.ts lines 38-58)

The source tries two regexes in order:

  Pattern A: `/github\.com\/([^\/]+)\/([^\/]+?)(\.git)?$/`
  Pattern B: `/github\.com[:\/]([^\/]+)\/([^\/]+?)(\.git)?$/`

Both are unanchored at the start (the engine scans left to right for the
first start position from which the whole pattern matches through to the
end of the string), the owner capture `[^\/]+` is a greedy nonempty run
of non-slash characters, the repo capture `[^\/]+?` is lazy, and the
optional `(\.git)?` before `$` strips a single trailing `.git` whenever
a nonempty repo capture remains.
-/

/-- The literal `github.com/` of pattern A. -/
def ghSlashLit : List Char := ['g', 'i', 't', 'h', 'u', 'b', '.', 'c', 'o', 'm', '/']

/-- The literal `github.com` of pattern B (followed by the class `[:\/]`). -/
def ghLit : List Char := ['g', 'i', 't', 'h', 'u', 'b', '.', 'c', 'o', 'm']

/-- Reversed `.git`, used to test/strip a trailing `.git`. -/
def dotGitRev : List Char := ['t', 'i', 'g', '.']

/-- The characters of `.git`. -/
def dotGitLit : List Char := ['.', 'g', 'i', 't']

/-- The tail `([^\/]+?)(\.git)?$` of both URL regexes applied to what
remains after the repo capture: with the end anchor, the lazy repo
capture takes the whole remainder unless it ends in `.git` with a
nonempty stem, in which case the optional group takes the `.git`. -/
def stripDotGit (r : List Char) : List Char :=
  match matchLit dotGitRev r.reverse with
  | some rest => if rest = [] then r else rest.reverse
  | none => r

/-- The common suffix `([^\/]+)\/([^\/]+?)(\.git)?$` of both URL
patterns, applied to the text following the matched literal: the greedy
owner capture runs to the next `/` (it cannot contain one), after which
the rest must be a nonempty slash-free segment reaching the end of the
string. -/
def parseAfter (l : List Char) : Option (List Char × List Char) :=
  let owner := l.takeWhile (fun c => c != '/')
  match l.dropWhile (fun c => c != '/') with
  | '/' :: r =>
    if owner ≠ [] ∧ r ≠ [] ∧ '/' ∉ r then some (owner, stripDotGit r) else none
  | _ => none

/-- One attempt of pattern A at the current start position. -/
def tryA (l : List Char) : Option (List Char × List Char) :=
  match matchLit ghSlashLit l with
  | some rest => parseAfter rest
  | none => none

/-- Pattern A run over the whole string: the engine tries every start
position left to right until the full pattern matches. -/
def scanA : List Char → Option (List Char × List Char)
  | [] => none
  | c :: t =>
    match tryA (c :: t) with
    | some r => some r
    | none => scanA t

/-- One attempt of pattern B at the current start position: the literal
`github.com`, one character of the class `[:\/]`, then the shared
owner/repo suffix. -/
def tryB (l : List Char) : Option (List Char × List Char) :=
  match matchLit ghLit l with
  | some (c :: rest) => if c = ':' ∨ c = '/' then parseAfter rest else none
  | _ => none

/-- Pattern B run over the whole string. -/
def scanB : List Char → Option (List Char × List Char)
  | [] => none
  | c :: t =>
    match tryB (c :: t) with
    | some r => some r
    | none => scanB t

/-- Embeds `parseGitUrl` (analyzer.ts lines 38-58): pattern A is tried first,
pattern B second; if neither matches the constructor throws
(`none` here), otherwise the two captures are `{username, repoName}`. -/
def parseGitUrlL (u : List Char) : Option (List Char × List Char) :=
  match scanA u with
  | some r => some r
  | none => scanB u

/-- String-level wrapper of the URL parser. -/
def parseGitUrl (s : String) : Option (String × String) :=
  (parseGitUrlL s.data).map fun p => (String.mk p.1, String.mk p.2)

/-! ### URL normalization (`normalizeGitUrl`, analyzer.ts lines 134-140)

```
return url.trim().replace(/\.git$/, '').replace('git@github.com:', 'https://github.com/');
```
The first replace strips one end-anchored `.git`; the second rewrites
the first occurrence of the literal `git@github.com:`. -/

/-- The literal `git@github.com:`. -/
def sshLit : List Char :=
  ['g', 'i', 't', '@', 'g', 'i', 't', 'h', 'u', 'b', '.', 'c', 'o', 'm', ':']

/-- The literal `https://github.com/`. -/
def httpsLit : List Char :=
  ['h', 't', 't', 'p', 's', ':', '/', '/', 'g', 'i', 't', 'h', 'u', 'b', '.', 'c', 'o', 'm', '/']

/-- Embeds `.replace(/\.git$/, '')`: remove a trailing `.git` if present
(unconditionally, unlike the repo capture of the URL parser). -/
def stripGitSuffix (l : List Char) : List Char :=
  match matchLit dotGitRev l.reverse with
  | some rest => rest.reverse
  | none => l

/-- Embeds `normalizeGitUrl` on character lists. -/
def normalizeGitUrlL (u : List Char) : List Char :=
  replaceFirst sshLit httpsLit (stripGitSuffix (jsTrimL u))

/-- String-level wrapper of `normalizeGitUrl`. -/
def normalizeGitUrl (s : String) : String := String.mk (normalizeGitUrlL s.data)

/-! ### Default-branch resolution and the clone/update step
(`cloneRepo`, analyzer.ts lines 142-207, and `performFreshClone`,
lines 209-224)

The outcomes of the external git commands are modelled as an
environment record; `cloneRepoRun` returns the ordered trace of
state-changing commands it executed together with the error it threw,
if any. -/

/-- The character class of the branch allow-list regex
`/^[a-zA-Z0-9_.-]+$/`. -/
def branchChar (c : Char) : Bool :=
  ('a' ≤ c && c ≤ 'z') || ('A' ≤ c && c ≤ 'Z') || ('0' ≤ c && c ≤ '9') ||
    c = '_' || c = '.' || c = '-'

/-- The test `!defaultBranch || !/^[a-zA-Z0-9_.-]+$/.test(defaultBranch)`
negated: the branch string is nonempty and every character is in the
allow-list (the regex is anchored on both sides and needs at least one
character). -/
def isValidBranch (l : List Char) : Bool := !l.isEmpty && l.all branchChar

/-- The literal `refs/remotes/origin/` stripped from the symbolic-ref
output. -/
def refsOriginLit : List Char :=
  ['r', 'e', 'f', 's', '/', 'r', 'e', 'm', 'o', 't', 'e', 's', '/',
   'o', 'r', 'i', 'g', 'i', 'n', '/']

/-- The literal `main`. -/
def mainLit : List Char := ['m', 'a', 'i', 'n']

/-- The literal `master`. -/
def masterLit : List Char := ['m', 'a', 's', 't', 'e', 'r']

/-- Outcomes of the git subprocess invocations made by `cloneRepo`.
`symbolicRefStdout = none` models a nonzero exit code of
`git symbolic-ref refs/remotes/origin/HEAD`; `mainExists`/`masterExists`
are the exit-code-zero results of `git rev-parse --verify origin/main`
and `origin/master`. -/
structure CloneEnv where
  validGitRepo : Bool
  remoteUrlQueryOk : Bool
  remoteUrlStdout : List Char
  fetchOk : Bool
  branchQueryStdout : List Char
  symbolicRefStdout : Option (List Char)
  mainExists : Bool
  masterExists : Bool
  resetOk : Bool
  cleanOk : Bool
  cloneOk : Bool
deriving DecidableEq, Repr

/-- Embeds `getCurrentRemoteUrl` (analyzer.ts lines 129-132): the trimmed
stdout of `git remote get-url origin` on exit code 0, else the empty
string. -/
def getCurrentRemoteUrl (env : CloneEnv) : List Char :=
  if env.remoteUrlQueryOk then jsTrimL env.remoteUrlStdout else []

/-- Default-branch resolution (analyzer.ts lines 158-184): take the
trimmed branch-query output; if empty or failing the allow-list regex,
fall back to the symbolic ref (trimmed, with the first
`refs/remotes/origin/` removed) when that command succeeded, otherwise
probe `main` then `master` (keeping the original invalid value when
neither exists); finally re-validate and throw (`none`) if the result
is still empty or fails the regex. -/
def branchCandidate (env : CloneEnv) : List Char :=
  let b0 := jsTrimL env.branchQueryStdout
  if isValidBranch b0 then b0
  else
    match env.symbolicRefStdout with
    | some out => replaceFirst refsOriginLit [] (jsTrimL out)
    | none =>
      if env.mainExists then mainLit
      else if env.masterExists then masterLit
      else b0

/-- The final re-validation (analyzer.ts lines 181-184): throw when the
candidate is still empty or fails the allow-list regex. -/
def resolveDefaultBranch (env : CloneEnv) : Option (List Char) :=
  if isValidBranch (branchCandidate env) then some (branchCandidate env) else none

/-- The state-changing commands `cloneRepo` can execute, in source
order.  `resetHard b` records the branch string interpolated into
`git reset --hard origin/${b}`. -/
inductive GitAction where
  | fetchAll
  | resetHard (branch : List Char)
  | cleanUntracked
  | removeRepo
  | cloneRepoCmd
deriving DecidableEq, Repr

/-- The errors `cloneRepo` throws (the source attaches the underlying
stderr text to a message; only the failing step matters here). -/
inductive CloneError where
  | fetchFailed
  | unresolvableBranch
  | resetFailed
  | cleanFailed
  | cloneFailed
deriving DecidableEq, Repr

/-- Embeds `cloneRepo` (analyzer.ts lines 142-207): if a valid working copy
exists and its remote URL normalizes equal to the expected URL, run
fetch, resolve the default branch, hard-reset to it and clean; if the
normalized URLs differ, remove the directory and perform a fresh
clone; if no valid working copy exists, perform a fresh clone.  The
result is the trace of executed commands and the thrown error, if
any. -/
def cloneRepoRun (env : CloneEnv) (expectedUrl : List Char) :
    List GitAction × Option CloneError :=
  if env.validGitRepo then
    if normalizeGitUrlL (getCurrentRemoteUrl env) = normalizeGitUrlL expectedUrl then
      if !env.fetchOk then ([.fetchAll], some .fetchFailed)
      else
        match resolveDefaultBranch env with
        | none => ([.fetchAll], some .unresolvableBranch)
        | some b =>
          if !env.resetOk then ([.fetchAll, .resetHard b], some .resetFailed)
          else if !env.cleanOk then
            ([.fetchAll, .resetHard b, .cleanUntracked], some .cleanFailed)
          else ([.fetchAll, .resetHard b, .cleanUntracked], none)
    else ([.removeRepo, .cloneRepoCmd], if env.cloneOk then none else some .cloneFailed)
  else ([.cloneRepoCmd], if env.cloneOk then none else some .cloneFailed)

/-! ### Commit-log parsing (`getCommitHistory`, analyzer.ts lines
278-289) and the summary assembled by `cloneAndAnalyze` (lines 91-96) -/

/-- JavaScript `String.prototype.split` with a single-character
separator: splitting the empty string yields `[""]`, and empty
segments are kept. -/
def splitOnChar (sep : Char) : List Char → List (List Char)
  | [] => [[]]
  | c :: t =>
    match splitOnChar sep t with
    | h :: r => if c = sep then [] :: h :: r else (c :: h) :: r
    | [] => [[]]

/-- One parsed commit-log line (types.ts `CommitInfo`).  The source
destructures `line.split('|')` into four variables; positions past the
end of the split are JavaScript `undefined`, modelled as `none`. -/
structure CommitInfo where
  hash : Option (List Char)
  author : Option (List Char)
  date : Option (List Char)
  message : Option (List Char)
deriving DecidableEq, Repr

/-- The body of the `map` in `getCommitHistory`:
`const [hash, author, date, message] = line.split('|')`. -/
def parseCommitLine (line : List Char) : CommitInfo :=
  let parts := splitOnChar '|' line
  ⟨parts[0]?, parts[1]?, parts[2]?, parts[3]?⟩

/-- Embeds `getCommitHistory` applied to the stdout of
`git log --pretty=format:"%H|%an|%ad|%s" --date=short`:
`log.split('\n').map(...)`. -/
def getCommitHistory (stdout : List Char) : List CommitInfo :=
  (splitOnChar '\n' stdout).map parseCommitLine

/-- types.ts `ContributorStats`. -/
structure ContributorStats where
  name : List Char
  email : List Char
  commits : Nat
  additions : Nat
  deletions : Nat
  firstCommit : List Char
  lastCommit : List Char
deriving DecidableEq, Repr

/-- types.ts `RepositorySummary`. -/
structure RepositorySummary where
  totalCommits : Nat
  totalContributors : Nat
  firstCommit : List Char
  lastCommit : List Char
deriving DecidableEq, Repr

/-- JavaScript `x || ''` applied to a string-or-undefined value. -/
def orEmpty (o : Option (List Char)) : List Char := o.getD []

/-- The summary assembled in `cloneAndAnalyze` (analyzer.ts lines
91-96): `totalCommits: commits.length`,
`firstCommit: commits[commits.length - 1]?.date || ''`,
`lastCommit: commits[0]?.date || ''`. -/
def mkSummary (commits : List CommitInfo) (contributors : List ContributorStats) :
    RepositorySummary :=
  { totalCommits := commits.length
    totalContributors := contributors.length
    firstCommit := orEmpty (commits.getLast?.bind (·.date))
    lastCommit := orEmpty (commits.head?.bind (·.date)) }

/-- types.ts `AnalysisResult`. -/
structure AnalysisResult where
  summary : RepositorySummary
  contributors : List ContributorStats
  recentCommits : List CommitInfo
  repositoryPath : List Char
deriving DecidableEq, Repr

/-- Embeds `cloneAndAnalyze` (analyzer.ts lines 85-123): run `cloneRepo`, then
parse contributors and commits and assemble the `AnalysisResult`; the
surrounding `try/catch` runs `cleanup()` (`rm -rf` of the working
copy) and rethrows the caught error.  The boolean records whether
`cleanup` ran.  The contributor list stands for the value computed by
`analyzeContributors` (its shortstat number parsing is modelled
separately below); commits come from the modelled `getCommitHistory`. -/
def cloneAndAnalyze (env : CloneEnv) (expectedUrl : List Char)
    (contributors : List ContributorStats) (logStdout : List Char)
    (repoPath : List Char) : Except CloneError AnalysisResult × Bool :=
  match (cloneRepoRun env expectedUrl).2 with
  | some e => (.error e, true)
  | none =>
    let commits := getCommitHistory logStdout
    (.ok { summary := mkSummary commits contributors
           contributors := contributors
           recentCommits := commits.take 10
           repositoryPath := repoPath }, false)

/-! ### Shortstat number scanning (`analyzeContributors`, analyzer.ts
lines 262-271)

```
const additions = authorStats.match(/(\d+) insertion/g)?.map(n => parseInt(n)) || [];
stats.additions = additions.reduce((a, b) => a + b, 0);
```
A global regex match walks the string left to right collecting
non-overlapping matches, each being a maximal digit run followed by a
space and the literal word; `parseInt` of the matched text reads the
leading digits. -/

/-- Embeds `parseInt` of a digit run. -/
def digitsToNat (ds : List Char) : Nat :=
  ds.foldl (fun n c => n * 10 + (c.toNat - '0'.toNat)) 0

/-- One pass of the global regex `/(\d+) word/g`: at a digit the greedy
`\d+` takes the maximal digit run; the match succeeds iff the literal
word follows immediately, in which case scanning resumes after the
match (matches do not overlap); otherwise, and at non-digits, scanning
moves one character right.  The fuel argument (always instantiated with
the length of the scanned string, which each step strictly decreases)
makes the recursion structural. -/
def scanNumWordF (word : List Char) : Nat → List Char → List Nat
  | 0, _ => []
  | _ + 1, [] => []
  | fuel + 1, c :: t =>
    if c.isDigit then
      match matchLit word ((c :: t).dropWhile Char.isDigit) with
      | some after =>
        digitsToNat ((c :: t).takeWhile Char.isDigit) :: scanNumWordF word fuel after
      | none => scanNumWordF word fuel t
    else scanNumWordF word fuel t

/-- All numbers captured by `/(\d+) word/g` over a string. -/
def scanNumWord (word l : List Char) : List Nat := scanNumWordF word l.length l

/-- The characters of `" insertion"` (the regex `/(\d+) insertion/g`
also matches the plural since it only requires the singular as a
prefix). -/
def insertionLit : List Char := [' ', 'i', 'n', 's', 'e', 'r', 't', 'i', 'o', 'n']

/-- The characters of `" deletion"`. -/
def deletionLit : List Char := [' ', 'd', 'e', 'l', 'e', 't', 'i', 'o', 'n']

/-- Embeds `stats.additions` for one per-author shortstat blob: the sum of all
captured insertion counts, `0` when the global match returned `null`
(no occurrences). -/
def parseAdditions (blob : List Char) : Nat :=
  (scanNumWord insertionLit blob).foldl (· + ·) 0

/-- Embeds `stats.deletions` for one per-author shortstat blob. -/
def parseDeletions (blob : List Char) : Nat :=
  (scanNumWord deletionLit blob).foldl (· + ·) 0

/-! ### Batch coordinator (`multi.ts`)

Each repository's end-to-end analysis outcome is abstracted as an
`Except`: `analyzeAll` and `analyzeAllParallel` only observe whether
`cloneAndAnalyze` resolved or threw. -/

/-- The `try { return result } catch { return null }` wrapper used
inside `analyzeAllParallel`'s `Promise.all`. -/
def exceptToOption {E R : Type} : Except E R → Option R
  | .ok r => some r
  | .error _ => none

/-- Embeds `analyzeAll` (multi.ts lines 13-31): sequential loop, pushing each
successful result and catching (logging, skipping) each failure. -/
def analyzeAll {E R : Type} : List (Except E R) → List R
  | [] => []
  | .ok r :: t => r :: analyzeAll t
  | .error _ :: t => analyzeAll t

/-- The chunking loop of `analyzeAllParallel` (multi.ts lines 39-41):
`for (let i = 0; i < n; i += concurrency) chunks.push(slice(i, i + concurrency))`.
The fuel (instantiated with the list length, which bounds the number of
iterations whenever `concurrency ≥ 1`) makes the loop a structural
recursion. -/
def chunksGo (c : Nat) (l : List α) : Nat → Nat → List (List α)
  | 0, _ => []
  | fuel + 1, i =>
    if i < l.length then ((l.drop i).take c) :: chunksGo c l fuel (i + c) else []

/-- The chunk list built by `analyzeAllParallel`. -/
def chunksOf (c : Nat) (l : List α) : List (List α) := chunksGo c l l.length 0

/-- The index variable of the chunking loop after `n` iterations, kept
separately to reason about termination: the loop guard is `i < len` and
the increment is `i += c`. -/
def loopIdx (c len : Nat) : Nat → Nat
  | 0 => 0
  | n + 1 => if loopIdx c len n < len then loopIdx c len n + c else loopIdx c len n

/-- Embeds `analyzeAllParallel` (multi.ts lines 33-64): chunks are processed
in order; within a chunk every member is attempted (a failure is caught
inside the `Promise.all` callback and becomes `null`), and the chunk's
results are null-filtered and appended in chunk-input order. -/
def analyzeAllParallel {E R : Type} (c : Nat) (outcomes : List (Except E R)) : List R :=
  ((chunksOf c outcomes).map fun chunk => (chunk.map exceptToOption).filterMap id).flatten

/-! ## Helper lemmas -/

theorem matchLit_eq_some_iff : ∀ (p l r : List Char), matchLit p l = some r ↔ l = p ++ r := by
  intro p
  induction p with
  | nil => intro l r; simp [matchLit]
  | cons p ps ih =>
    intro l r
    cases l with
    | nil => simp [matchLit]
    | cons c cs =>
      by_cases hc : c = p
      · subst hc; simp [matchLit, ih]
      · simp [matchLit, hc]

theorem matchLit_cons_ne {p c : Char} (h : c ≠ p) (ps l : List Char) :
    matchLit (p :: ps) (c :: l) = none := by
  simp [matchLit, h]

theorem matchLit_none_of_len {p l : List Char} (h : l.length < p.length) :
    matchLit p l = none := by
  cases hm : matchLit p l with
  | none => rfl
  | some r =>
    have heq := (matchLit_eq_some_iff p l r).mp hm
    have := congrArg List.length heq
    simp [List.length_append] at this
    omega

theorem takeWhile_append_not {p : Char → Bool} :
    ∀ (l : List Char) (x : Char) (r : List Char), (∀ a ∈ l, p a = true) → p x = false →
      (l ++ x :: r).takeWhile p = l ∧ (l ++ x :: r).dropWhile p = x :: r := by
  intro l
  induction l with
  | nil => intro x r _ hx; simp [List.takeWhile_cons, List.dropWhile_cons, hx]
  | cons c l ih =>
    intro x r h hx
    have hc : p c = true := h c (by simp)
    obtain ⟨h1, h2⟩ := ih x r (fun a ha => h a (by simp [ha])) hx
    simp [List.takeWhile_cons, List.dropWhile_cons, hc, h1, h2]

theorem dropWhile_cons_false {p : Char → Bool} {c : Char} (t : List Char)
    (h : p c = false) : (c :: t).dropWhile p = c :: t := by
  simp [List.dropWhile_cons, h]

theorem jsTrimL_eq_self (l : List Char)
    (h1 : ∀ c, l.head? = some c → wsChar c = false)
    (h2 : ∀ c, l.getLast? = some c → wsChar c = false) : jsTrimL l = l := by
  cases l with
  | nil => rfl
  | cons c t =>
    have hd : (c :: t).dropWhile wsChar = c :: t := dropWhile_cons_false t (h1 c rfl)
    have hrr : (c :: t).reverse.dropWhile wsChar = (c :: t).reverse := by
      cases hr : (c :: t).reverse with
      | nil => rfl
      | cons y m =>
        have hy : (c :: t).getLast? = some y := by
          rw [← List.head?_reverse, hr]; rfl
        exact dropWhile_cons_false m (h2 y hy)
    unfold jsTrimL
    rw [hd, hrr, List.reverse_reverse]

theorem replaceFirst_nil (pat rep : List Char) : replaceFirst pat rep [] = [] := rfl

theorem replaceFirst_last_pair (pat rep : List Char) (x y : Char)
    (hp : 2 ≤ pat.length) (hx : pat.getLast? ≠ some x) (hy : pat.getLast? ≠ some y) :
    ∀ m : List Char, ∃ t, replaceFirst pat rep (m ++ [x]) = t ++ [x] ∧
      replaceFirst pat rep (m ++ [y]) = t ++ [y] := by
  have key : ∀ (m : List Char) (z : Char), pat.getLast? ≠ some z →
      ∀ r, matchLit pat (m ++ [z]) = some r →
        ∃ r', r = r' ++ [z] ∧ m = pat ++ r' := by
    intro m z hz r hm
    have heq := (matchLit_eq_some_iff _ _ _).mp hm
    rcases List.eq_nil_or_concat r with rfl | ⟨r', w, rfl⟩
    · exfalso
      apply hz
      rw [List.append_nil] at heq
      rw [← heq, List.getLast?_concat]
    · simp only [List.concat_eq_append] at heq ⊢
      have heq' : m ++ [z] = (pat ++ r') ++ [w] := by
        rw [heq, List.append_assoc]
      obtain ⟨hm', hw⟩ := List.append_inj' heq' rfl
      obtain rfl : z = w := by simpa using hw
      exact ⟨r', rfl, hm'⟩
  intro m
  induction m with
  | nil =>
    have hnx : matchLit pat [x] = none :=
      matchLit_none_of_len (by simp; omega)
    have hny : matchLit pat [y] = none :=
      matchLit_none_of_len (by simp; omega)
    refine ⟨[], ?_, ?_⟩ <;> simp [replaceFirst, hnx, hny, replaceFirst_nil]
  | cons a m ih =>
    obtain ⟨t, htx, hty⟩ := ih
    cases hmx : matchLit pat ((a :: m) ++ [x]) with
    | some r =>
      obtain ⟨r', rfl, hm'⟩ := key (a :: m) x hx r hmx
      have hmy : matchLit pat ((a :: m) ++ [y]) = some (r' ++ [y]) := by
        apply (matchLit_eq_some_iff _ _ _).mpr
        rw [← List.append_assoc, ← hm']
      refine ⟨rep ++ r', ?_, ?_⟩
      · rw [List.cons_append, replaceFirst, ← List.cons_append, hmx, List.append_assoc]
      · rw [List.cons_append, replaceFirst, ← List.cons_append, hmy, List.append_assoc]
    | none =>
      have hmy : matchLit pat ((a :: m) ++ [y]) = none := by
        cases hmy : matchLit pat ((a :: m) ++ [y]) with
        | none => rfl
        | some r =>
          obtain ⟨r', rfl, hm'⟩ := key (a :: m) y hy r hmy
          have : matchLit pat ((a :: m) ++ [x]) = some (r' ++ [x]) := by
            apply (matchLit_eq_some_iff _ _ _).mpr
            rw [← List.append_assoc, ← hm']
          rw [this] at hmx
          exact Option.noConfusion hmx
      refine ⟨a :: t, ?_, ?_⟩
      · rw [List.cons_append, replaceFirst, ← List.cons_append, hmx, htx, List.cons_append]
      · rw [List.cons_append, replaceFirst, ← List.cons_append, hmy, hty, List.cons_append]

theorem parseAfter_spec (owner rest : List Char) (h1 : '/' ∉ owner) (h2 : owner ≠ [])
    (h3 : rest ≠ []) (h4 : '/' ∉ rest) :
    parseAfter (owner ++ '/' :: rest) = some (owner, stripDotGit rest) := by
  have hall : ∀ a ∈ owner, (a != '/') = true := by
    intro a ha
    simp only [bne_iff_ne, ne_eq]
    rintro rfl
    exact h1 ha
  have hx : (('/' : Char) != '/') = false := by simp
  obtain ⟨htw, hdw⟩ := takeWhile_append_not owner '/' rest hall hx
  unfold parseAfter
  rw [htw, hdw]
  simp [h2, h3, h4]

theorem stripDotGit_append_git (stem : List Char) (hs : stem ≠ []) :
    stripDotGit (stem ++ dotGitLit) = stem := by
  unfold stripDotGit
  have hrev : (stem ++ dotGitLit).reverse = dotGitRev ++ stem.reverse := by
    simp [dotGitLit, dotGitRev]
  rw [hrev, (matchLit_eq_some_iff dotGitRev _ stem.reverse).mpr rfl]
  simp [hs]

theorem stripDotGit_of_not_suffix (r : List Char) (h : ¬ dotGitLit <:+ r) :
    stripDotGit r = r := by
  unfold stripDotGit
  cases hm : matchLit dotGitRev r.reverse with
  | none => rfl
  | some rest =>
    exfalso
    apply h
    have heq := (matchLit_eq_some_iff _ _ _).mp hm
    have hr : r = rest.reverse ++ dotGitLit := by
      have h2 := congrArg List.reverse heq
      simpa [dotGitRev, dotGitLit] using h2
    exact ⟨rest.reverse, hr.symm⟩

theorem scanA_cons (c : Char) (t : List Char) :
    scanA (c :: t) = match tryA (c :: t) with | some r => some r | none => scanA t := rfl

theorem scanA_cons_none {c : Char} {t : List Char} (h : tryA (c :: t) = none) :
    scanA (c :: t) = scanA t := by rw [scanA_cons, h]

theorem tryA_head_ne {c : Char} (hc : c ≠ 'g') (t : List Char) : tryA (c :: t) = none := by
  simp [tryA, ghSlashLit, matchLit, hc]

theorem scanA_at_match {r : List Char × List Char} (X : List Char)
    (h : parseAfter X = some r) : scanA (ghSlashLit ++ X) = some r := by
  have hexp : ghSlashLit ++ X =
      'g' :: (['i', 't', 'h', 'u', 'b', '.', 'c', 'o', 'm', '/'] ++ X) := by
    simp [ghSlashLit]
  have htry : tryA (ghSlashLit ++ X) = some r := by
    unfold tryA
    rw [(matchLit_eq_some_iff ghSlashLit (ghSlashLit ++ X) X).mpr rfl]
    exact h
  rw [hexp] at htry ⊢
  rw [scanA_cons, htry]

theorem scanA_skip_scheme (X : List Char) :
    scanA (httpsLit ++ X) = scanA (ghSlashLit ++ X) := by
  have hexp : httpsLit ++ X =
      'h' :: 't' :: 't' :: 'p' :: 's' :: ':' :: '/' :: '/' :: (ghSlashLit ++ X) := by
    simp [httpsLit, ghSlashLit]
  rw [hexp,
    scanA_cons_none (tryA_head_ne (by decide) _),
    scanA_cons_none (tryA_head_ne (by decide) _),
    scanA_cons_none (tryA_head_ne (by decide) _),
    scanA_cons_none (tryA_head_ne (by decide) _),
    scanA_cons_none (tryA_head_ne (by decide) _),
    scanA_cons_none (tryA_head_ne (by decide) _),
    scanA_cons_none (tryA_head_ne (by decide) _),
    scanA_cons_none (tryA_head_ne (by decide) _)]

theorem scanA_eq_none_count : ∀ (l : List Char), l.count '/' ≤ 1 → scanA l = none := by
  intro l
  induction l with
  | nil => intro _; rfl
  | cons c t ih =>
    intro h
    have ht : t.count '/' ≤ 1 := by
      have := List.count_cons '/' c t
      omega
    rw [scanA_cons]
    cases htry : tryA (c :: t) with
    | none => exact ih ht
    | some r =>
      exfalso
      unfold tryA at htry
      cases hm : matchLit ghSlashLit (c :: t) with
      | none => rw [hm] at htry; exact Option.noConfusion htry
      | some rest =>
        have htry' : parseAfter rest = some r := by
          rw [hm] at htry
          exact htry
        have heq := (matchLit_eq_some_iff _ _ _).mp hm
        have hcnt : rest.count '/' = 0 := by
          have hc := congrArg (List.count '/') heq
          rw [List.count_append] at hc
          have : ghSlashLit.count '/' = 1 := by decide
          omega
        have hnone : '/' ∉ rest := by
          intro hmem
          have := List.count_pos_iff.mpr hmem
          omega
        have hdw : rest.dropWhile (fun c => c != '/') = [] := by
          rw [List.dropWhile_eq_nil_iff]
          intro x hx
          simp only [bne_iff_ne, ne_eq]
          rintro rfl
          exact hnone hx
        simp [parseAfter, hdw] at htry'

theorem scanB_cons (c : Char) (t : List Char) :
    scanB (c :: t) = match tryB (c :: t) with | some r => some r | none => scanB t := rfl

theorem scanB_cons_none {c : Char} {t : List Char} (h : tryB (c :: t) = none) :
    scanB (c :: t) = scanB t := by rw [scanB_cons, h]

theorem tryB_head_ne {c : Char} (hc : c ≠ 'g') (t : List Char) : tryB (c :: t) = none := by
  simp [tryB, ghLit, matchLit, hc]

theorem tryB_git_at (X : List Char) : tryB ('g' :: 'i' :: 't' :: '@' :: X) = none := by
  simp [tryB, ghLit, matchLit]

theorem scanB_at_match {r : List Char × List Char} (X : List Char)
    (h : parseAfter X = some r) : scanB (ghLit ++ (':' :: X)) = some r := by
  have hexp : ghLit ++ (':' :: X) =
      'g' :: (['i', 't', 'h', 'u', 'b', '.', 'c', 'o', 'm'] ++ (':' :: X)) := by
    simp [ghLit]
  have htry : tryB (ghLit ++ (':' :: X)) = some r := by
    unfold tryB
    rw [(matchLit_eq_some_iff ghLit (ghLit ++ (':' :: X)) (':' :: X)).mpr rfl]
    simpa using h
  rw [hexp] at htry ⊢
  rw [scanB_cons, htry]

/-! ## Claims -/

/-- C1 (code bug): the spec asserts that an empty commit log yields
`totalCommits = 0`; in the source, `"".split('\n')` is `[""]`, so
`getCommitHistory` on empty stdout returns one phantom record (empty
hash, all other fields undefined) and the summary reports
`totalCommits = 1`.  `firstCommit` and `lastCommit` do come out as the
empty string, and no exception is thrown. -/
theorem commit_history_empty_log_eval :
    getCommitHistory [] = [⟨some [], none, none, none⟩] ∧
    (mkSummary (getCommitHistory []) []).totalCommits = 1 ∧
    (mkSummary (getCommitHistory []) []).firstCommit = [] ∧
    (mkSummary (getCommitHistory []) []).lastCommit = [] :=
  ⟨rfl, rfl, rfl, rfl⟩

/-- C2 (amended): for host `github.com` and any nonempty owner and repo
containing no `/`, with the repo not itself ending in `.git`, the three
supported URL forms parse to the identical `(owner, repo)` pair, the
repo identifier carrying no trailing `.git`. -/
theorem parseGitUrl_three_forms_agree (owner repo : List Char)
    (ho1 : owner ≠ []) (ho2 : '/' ∉ owner)
    (hr1 : repo ≠ []) (hr2 : '/' ∉ repo) (hr3 : ¬ dotGitLit <:+ repo) :
    parseGitUrlL (httpsLit ++ (owner ++ '/' :: repo)) = some (owner, repo) ∧
    parseGitUrlL (httpsLit ++ (owner ++ '/' :: (repo ++ dotGitLit))) = some (owner, repo) ∧
    parseGitUrlL (sshLit ++ (owner ++ '/' :: (repo ++ dotGitLit))) = some (owner, repo) := by
  have hne : repo ++ dotGitLit ≠ [] := by simp [dotGitLit]
  have hns : '/' ∉ repo ++ dotGitLit := by
    intro hmem
    rcases List.mem_append.mp hmem with h | h
    · exact hr2 h
    · simp [dotGitLit] at h
  have hpa2 : parseAfter (owner ++ '/' :: (repo ++ dotGitLit)) = some (owner, repo) := by
    rw [parseAfter_spec owner (repo ++ dotGitLit) ho2 ho1 hne hns,
      stripDotGit_append_git repo hr1]
  refine ⟨?_, ?_, ?_⟩
  · have hpa : parseAfter (owner ++ '/' :: repo) = some (owner, repo) := by
      rw [parseAfter_spec owner repo ho2 ho1 hr1 hr2, stripDotGit_of_not_suffix repo hr3]
    have hs : scanA (httpsLit ++ (owner ++ '/' :: repo)) = some (owner, repo) := by
      rw [scanA_skip_scheme, scanA_at_match _ hpa]
    unfold parseGitUrlL
    rw [hs]
  · have hs : scanA (httpsLit ++ (owner ++ '/' :: (repo ++ dotGitLit))) =
        some (owner, repo) := by
      rw [scanA_skip_scheme, scanA_at_match _ hpa2]
    unfold parseGitUrlL
    rw [hs]
  · have hA : scanA (sshLit ++ (owner ++ '/' :: (repo ++ dotGitLit))) = none := by
      apply scanA_eq_none_count
      have h1 : sshLit.count '/' = 0 := by decide
      have h2 : dotGitLit.count '/' = 0 := by decide
      have h3 : owner.count '/' = 0 := List.count_eq_zero.mpr ho2
      have h4 : repo.count '/' = 0 := List.count_eq_zero.mpr hr2
      simp [List.count_append, List.count_cons, h1, h2, h3, h4]
    have hssh : sshLit ++ (owner ++ '/' :: (repo ++ dotGitLit)) =
        'g' :: 'i' :: 't' :: '@' ::
          (ghLit ++ (':' :: (owner ++ '/' :: (repo ++ dotGitLit)))) := by
      simp [sshLit, ghLit]
    have hB : scanB (sshLit ++ (owner ++ '/' :: (repo ++ dotGitLit))) =
        some (owner, repo) := by
      rw [hssh, scanB_cons_none (tryB_git_at _),
        scanB_cons_none (tryB_head_ne (by decide) _),
        scanB_cons_none (tryB_head_ne (by decide) _),
        scanB_cons_none (tryB_head_ne (by decide) _),
        scanB_at_match _ hpa2]
    unfold parseGitUrlL
    rw [hA]
    exact hB

/-- C2 witness: the three-forms theorem applied at owner `a`,
repo `b`. -/
theorem parseGitUrl_three_forms_agree_witness :
    (['a'] : List Char) ≠ [] ∧
    parseGitUrlL (httpsLit ++ (['a'] ++ '/' :: ['b'])) = some (['a'], ['b']) :=
  ⟨by decide,
    (parseGitUrl_three_forms_agree ['a'] ['b'] (by decide) (by decide) (by decide)
      (by decide) (by decide)).1⟩

/-- C2 counterexample: the parser is hard-wired to the host
`github.com` (for any other host it yields no pair at all), and for a
repo whose name itself ends in `.git` the three forms do not agree and
the yielded identifier can retain a trailing `.git`. -/
theorem parseGitUrl_any_host_counterexample :
    parseGitUrl "https://gitlab.com/a/b" = none ∧
    parseGitUrl "https://github.com/a/b.git" = some ("a", "b") ∧
    parseGitUrl "https://github.com/a/b.git.git" = some ("a", "b.git") := by
  refine ⟨by decide, by decide, by decide⟩

/-- C4 (amended): a commit-log line splitting into fewer than four
fields produces a record whose missing fields are left undefined
(absent), not the empty string; the parser is total (never throws) and
the record at each index is the parse of the input line at the same
index. -/
theorem parseCommitLine_missing_fields :
    (∀ line : List Char,
      parseCommitLine line =
        ⟨(splitOnChar '|' line)[0]?, (splitOnChar '|' line)[1]?,
         (splitOnChar '|' line)[2]?, (splitOnChar '|' line)[3]?⟩) ∧
    (∀ line : List Char, (splitOnChar '|' line).length ≤ 3 →
      (parseCommitLine line).message = none) ∧
    (∀ line : List Char, (splitOnChar '|' line).length ≤ 2 →
      (parseCommitLine line).date = none) ∧
    (∀ line : List Char, (splitOnChar '|' line).length ≤ 1 →
      (parseCommitLine line).author = none) ∧
    (∀ (log : List Char) (i : Nat),
      (getCommitHistory log)[i]? = ((splitOnChar '\n' log)[i]?).map parseCommitLine) := by
  refine ⟨fun line => rfl, ?_, ?_, ?_, ?_⟩
  · intro line h
    simp [parseCommitLine, List.getElem?_eq_none h]
  · intro line h
    simp [parseCommitLine, List.getElem?_eq_none h]
  · intro line h
    simp [parseCommitLine, List.getElem?_eq_none h]
  · intro log i
    simp [getCommitHistory, List.getElem?_map]

/-- C4 witness: a line with no delimiter has one field; its `message`
is undefined. -/
theorem parseCommitLine_missing_fields_witness :
    (splitOnChar '|' ['a', 'b', 'c']).length ≤ 3 ∧
    (parseCommitLine ['a', 'b', 'c']).message = none :=
  ⟨by decide, parseCommitLine_missing_fields.2.1 ['a', 'b', 'c'] (by decide)⟩

/-- C4 counterexample: the `author` field of a delimiter-free line is
`undefined` (`none`), not the empty string. -/
theorem parseCommitLine_empty_fields_counterexample :
    (parseCommitLine ['a', 'b', 'c']).author = none ∧
    (parseCommitLine ['a', 'b', 'c']).author ≠ some [] := by
  exact ⟨rfl, by decide⟩

/-- C6 (confirmed): when any step of a single repository's analysis
throws, `cloneAndAnalyze` runs `cleanup()` (deleting the working copy)
and rethrows that same error: no retry and no partial
`AnalysisResult`.  When no step throws, no cleanup happens and the
fully populated result is returned. -/
theorem cloneAndAnalyze_error_propagation :
    (∀ (env : CloneEnv) (url : List Char) (contribs : List ContributorStats)
       (log path : List Char) (e : CloneError),
      (cloneRepoRun env url).2 = some e →
      cloneAndAnalyze env url contribs log path = (Except.error e, true)) ∧
    (∀ (env : CloneEnv) (url : List Char) (contribs : List ContributorStats)
       (log path : List Char),
      (cloneRepoRun env url).2 = none →
      cloneAndAnalyze env url contribs log path =
        (Except.ok { summary := mkSummary (getCommitHistory log) contribs
                     contributors := contribs
                     recentCommits := (getCommitHistory log).take 10
                     repositoryPath := path }, false)) := by
  constructor
  · intro env url contribs log path e h
    unfold cloneAndAnalyze
    rw [h]
  · intro env url contribs log path h
    unfold cloneAndAnalyze
    rw [h]

/-- C6 witness: a failing clone propagates `cloneFailed` and triggers
cleanup. -/
theorem cloneAndAnalyze_error_propagation_witness :
    cloneAndAnalyze ⟨false, false, [], false, [], none, false, false, false, false, false⟩
        [] [] [] [] = (Except.error CloneError.cloneFailed, true) :=
  cloneAndAnalyze_error_propagation.1 _ [] [] [] [] CloneError.cloneFailed rfl

/-- C8 (confirmed): a valid working copy whose configured remote URL
differs from the expected URL after normalization is removed entirely
and freshly cloned; the fetch/reset/clean sequence is not executed. -/
theorem mismatch_reclone (env : CloneEnv) (url : List Char)
    (hv : env.validGitRepo = true)
    (hne : normalizeGitUrlL (getCurrentRemoteUrl env) ≠ normalizeGitUrlL url) :
    (cloneRepoRun env url).1 = [GitAction.removeRepo, GitAction.cloneRepoCmd] ∧
    GitAction.fetchAll ∉ (cloneRepoRun env url).1 ∧
    (∀ b, GitAction.resetHard b ∉ (cloneRepoRun env url).1) ∧
    GitAction.cleanUntracked ∉ (cloneRepoRun env url).1 := by
  have h1 : (cloneRepoRun env url).1 = [GitAction.removeRepo, GitAction.cloneRepoCmd] := by
    unfold cloneRepoRun
    rw [if_pos hv, if_neg hne]
  refine ⟨h1, ?_, ?_, ?_⟩ <;> simp [h1]

/-- C8 witness: remote `x`, expected `y`. -/
theorem mismatch_reclone_witness :
    (cloneRepoRun ⟨true, true, ['x'], true, [], none, false, false, true, true, true⟩
        ['y']).1 = [GitAction.removeRepo, GitAction.cloneRepoCmd] :=
  (mismatch_reclone _ ['y'] rfl (by decide)).1

theorem resolveDefaultBranch_valid {env : CloneEnv} {b : List Char}
    (h : resolveDefaultBranch env = some b) : isValidBranch b = true := by
  unfold resolveDefaultBranch at h
  by_cases hv : isValidBranch (branchCandidate env) = true
  · rw [if_pos hv] at h
    exact Option.some.inj h ▸ hv
  · rw [if_neg hv] at h
    exact Option.noConfusion h

/-- C5 (confirmed): every branch name interpolated into the hard-reset
command passed the allow-list regex `^[a-zA-Z0-9_.-]+$`, and when none
of the three resolution methods (remote-HEAD query, symbolic-ref
fallback, probing `main` then `master`) yields a name passing that
regex, the update path fails after the fetch with the
unresolvable-branch error and builds no reset command at all. -/
theorem branch_reset_validated :
    (∀ (env : CloneEnv) (url b : List Char),
      GitAction.resetHard b ∈ (cloneRepoRun env url).1 → isValidBranch b = true) ∧
    (∀ (env : CloneEnv) (url : List Char),
      env.validGitRepo = true →
      normalizeGitUrlL (getCurrentRemoteUrl env) = normalizeGitUrlL url →
      env.fetchOk = true →
      isValidBranch (jsTrimL env.branchQueryStdout) = false →
      (∀ out, env.symbolicRefStdout = some out →
        isValidBranch (replaceFirst refsOriginLit [] (jsTrimL out)) = false) →
      (env.symbolicRefStdout = none → env.mainExists = false ∧ env.masterExists = false) →
      cloneRepoRun env url = ([GitAction.fetchAll], some CloneError.unresolvableBranch)) := by
  constructor
  · intro env url b hmem
    unfold cloneRepoRun at hmem
    by_cases h1 : env.validGitRepo = true
    case neg => rw [if_neg h1] at hmem; simp at hmem
    rw [if_pos h1] at hmem
    by_cases h2 : normalizeGitUrlL (getCurrentRemoteUrl env) = normalizeGitUrlL url
    case neg => rw [if_neg h2] at hmem; simp at hmem
    rw [if_pos h2] at hmem
    by_cases h3 : (!env.fetchOk) = true
    case pos => rw [if_pos h3] at hmem; simp at hmem
    rw [if_neg h3] at hmem
    cases hres : resolveDefaultBranch env with
    | none => simp only [hres] at hmem; simp at hmem
    | some b' =>
      simp only [hres] at hmem
      have hval := resolveDefaultBranch_valid hres
      by_cases h4 : (!env.resetOk) = true
      · rw [if_pos h4] at hmem
        simp at hmem
        exact hmem ▸ hval
      · rw [if_neg h4] at hmem
        by_cases h5 : (!env.cleanOk) = true
        · rw [if_pos h5] at hmem
          simp at hmem
          exact hmem ▸ hval
        · rw [if_neg h5] at hmem
          simp at hmem
          exact hmem ▸ hval
  · intro env url hv hnorm hf hA hB hC
    have hres : resolveDefaultBranch env = none := by
      have hcand : isValidBranch (branchCandidate env) = false := by
        simp only [branchCandidate]
        rw [if_neg (by simp [hA])]
        cases hsym : env.symbolicRefStdout with
        | some out => exact hB out hsym
        | none =>
          obtain ⟨hm1, hm2⟩ := hC hsym
          simp [hm1, hm2, hA]
      unfold resolveDefaultBranch
      rw [if_neg (by simp [hcand])]
    unfold cloneRepoRun
    rw [if_pos hv, if_pos hnorm, if_neg (by simp [hf]), hres]

/-- C5 witness: a branch that reached the reset command is valid, and
an environment where all three methods fail produces the
unresolvable-branch error with no reset action. -/
theorem branch_reset_validated_witness :
    isValidBranch mainLit = true ∧
    cloneRepoRun ⟨true, true, [], true, [], none, false, false, true, true, true⟩ [] =
      ([GitAction.fetchAll], some CloneError.unresolvableBranch) :=
  ⟨branch_reset_validated.1 ⟨true, true, [], true, mainLit, none, false, false, true, true, true⟩
      [] mainLit (by decide),
   branch_reset_validated.2 ⟨true, true, [], true, [], none, false, false, true, true, true⟩ []
      rfl (by decide) rfl (by decide) (fun out h => nomatch h) (fun _ => ⟨rfl, rfl⟩)⟩

theorem stripGitSuffix_of_last_ne (l : List Char) (x : Char)
    (hl : l.getLast? = some x) (hx : x ≠ 't') : stripGitSuffix l = l := by
  unfold stripGitSuffix
  cases hr : l.reverse with
  | nil => rfl
  | cons y m =>
    have hy : y = x := by
      have hh := List.head?_reverse l
      rw [hr, hl] at hh
      exact Option.some.inj hh
    have hnone : matchLit dotGitRev (y :: m) = none := by
      rw [show dotGitRev = 't' :: ['i', 'g', '.'] from rfl]
      exact matchLit_cons_ne (by rw [hy]; exact hx) _ m
    rw [hnone]

/-- C3 (amended): normalization makes the SSH and HTTPS forms of a
`github.com` URL compare equal (the host rewrite is hard-wired to
`git@github.com:`), and for any host it keeps
`https://host/a/b` and `https://host/a/c` distinct. -/
theorem normalizeGitUrl_equivalence :
    normalizeGitUrl "git@github.com:a/b.git" = normalizeGitUrl "https://github.com/a/b" ∧
    ∀ host : List Char,
      normalizeGitUrlL
          (['h', 't', 't', 'p', 's', ':', '/', '/'] ++ (host ++ ['/', 'a', '/', 'b'])) ≠
        normalizeGitUrlL
          (['h', 't', 't', 'p', 's', ':', '/', '/'] ++ (host ++ ['/', 'a', '/', 'c'])) := by
  constructor
  · decide
  · intro host
    have hform : ∀ x : Char,
        ['h', 't', 't', 'p', 's', ':', '/', '/'] ++ (host ++ ['/', 'a', '/', x]) =
          (['h', 't', 't', 'p', 's', ':', '/', '/'] ++ host ++ ['/', 'a', '/']) ++ [x] := by
      intro x
      simp
    have hnorm : ∀ x : Char, wsChar x = false → x ≠ 't' →
        normalizeGitUrlL
            ((['h', 't', 't', 'p', 's', ':', '/', '/'] ++ host ++ ['/', 'a', '/']) ++ [x]) =
          replaceFirst sshLit httpsLit
            ((['h', 't', 't', 'p', 's', ':', '/', '/'] ++ host ++ ['/', 'a', '/']) ++ [x]) := by
      intro x hwx htx
      have hhead : ∀ c, ((['h', 't', 't', 'p', 's', ':', '/', '/'] ++ host ++ ['/', 'a', '/'])
          ++ [x]).head? = some c → wsChar c = false := by
        intro c hc
        simp at hc
        rw [← hc]
        decide
      have hlast : ((['h', 't', 't', 'p', 's', ':', '/', '/'] ++ host ++ ['/', 'a', '/'])
          ++ [x]).getLast? = some x := List.getLast?_concat _
      unfold normalizeGitUrlL
      rw [jsTrimL_eq_self _ hhead (by intro c hc; rw [hlast] at hc; exact Option.some.inj hc ▸ hwx),
        stripGitSuffix_of_last_ne _ x hlast htx]
    obtain ⟨t, htb, htc⟩ :=
      replaceFirst_last_pair sshLit httpsLit 'b' 'c' (by decide) (by decide) (by decide)
        (['h', 't', 't', 'p', 's', ':', '/', '/'] ++ host ++ ['/', 'a', '/'])
    intro heq
    rw [hform 'b', hform 'c', hnorm 'b' (by decide) (by decide),
      hnorm 'c' (by decide) (by decide), htb, htc] at heq
    have hb := List.getLast?_concat (l := t) (a := 'b')
    rw [heq, List.getLast?_concat] at hb
    exact absurd (Option.some.inj hb) (by decide)

/-- C3 counterexample: the SSH-to-HTTPS rewrite only recognises the
host `github.com`, so for another host the two claimed-equal forms
normalize differently. -/
theorem normalizeGitUrl_any_host_counterexample :
    normalizeGitUrl "git@gitlab.com:a/b.git" ≠ normalizeGitUrl "https://gitlab.com/a/b" := by
  decide

theorem analyzeAll_eq_filterMap {E R : Type} :
    ∀ l : List (Except E R), analyzeAll l = l.filterMap exceptToOption := by
  intro l
  induction l with
  | nil => rfl
  | cons o t ih =>
    cases o with
    | ok r => simp [analyzeAll, exceptToOption, List.filterMap_cons, ih]
    | error e => simp [analyzeAll, exceptToOption, List.filterMap_cons, ih]

theorem chunksGo_flatten {α : Type} (c : Nat) (hc : 1 ≤ c) (l : List α) :
    ∀ fuel i : Nat, l.length - i ≤ fuel → (chunksGo c l fuel i).flatten = l.drop i := by
  intro fuel
  induction fuel with
  | zero =>
    intro i h
    have hle : l.length ≤ i := by omega
    simp [chunksGo, List.drop_eq_nil_of_le hle]
  | succ fuel ih =>
    intro i h
    unfold chunksGo
    split
    case isTrue hi =>
      rw [List.flatten_cons, ih (i + c) (by omega)]
      have hdd : l.drop (i + c) = (l.drop i).drop c := by
        rw [List.drop_drop, Nat.add_comm]
      rw [hdd, List.take_append_drop]
    case isFalse hi =>
      simp [List.drop_eq_nil_of_le (by omega : l.length ≤ i)]

theorem chunksGo_length_le {α : Type} (c : Nat) (l : List α) :
    ∀ fuel i : Nat, ∀ ch ∈ chunksGo c l fuel i, ch.length ≤ c := by
  intro fuel
  induction fuel with
  | zero => intro i ch hch; simp [chunksGo] at hch
  | succ fuel ih =>
    intro i ch hch
    unfold chunksGo at hch
    split at hch
    · rcases List.mem_cons.mp hch with rfl | hch'
      · simp [List.length_take]
      · exact ih _ ch hch'
    · simp at hch

theorem chunksGo_ne_nil {α : Type} {c : Nat} {l : List α} :
    ∀ {fuel i : Nat}, chunksGo c l fuel i ≠ [] → i < l.length := by
  intro fuel i h
  cases fuel with
  | zero => simp [chunksGo] at h
  | succ fuel =>
    unfold chunksGo at h
    by_cases hi : i < l.length
    · exact hi
    · rw [if_neg hi] at h
      exact absurd rfl h

theorem chunksGo_dropLast_full {α : Type} (c : Nat) (l : List α) :
    ∀ fuel i : Nat, ∀ ch ∈ (chunksGo c l fuel i).dropLast, ch.length = c := by
  intro fuel
  induction fuel with
  | zero => intro i ch hch; simp [chunksGo] at hch
  | succ fuel ih =>
    intro i ch hch
    unfold chunksGo at hch
    split at hch
    case isTrue hi =>
      cases hrest : chunksGo c l fuel (i + c) with
      | nil => rw [hrest] at hch; simp at hch
      | cons r0 rs =>
        rw [hrest, List.dropLast_cons_of_ne_nil (by simp)] at hch
        rcases List.mem_cons.mp hch with rfl | hch'
        · have hic : i + c < l.length := chunksGo_ne_nil (by rw [hrest]; simp)
          simp [List.length_take, List.length_drop]
          omega
        · exact ih (i + c) ch (by rw [hrest]; exact hch')
    case isFalse hi => simp at hch

theorem loopIdx_zero_conc (len : Nat) : ∀ n, loopIdx 0 len n = 0 := by
  intro n
  induction n with
  | zero => rfl
  | succ n ih => unfold loopIdx; simp [ih]

theorem loopIdx_min_le (c len : Nat) : ∀ n, min len (n * c) ≤ loopIdx c len n := by
  intro n
  induction n with
  | zero => simp [loopIdx]
  | succ n ih =>
    unfold loopIdx
    rw [Nat.succ_mul]
    split
    case isTrue h => omega
    case isFalse h => omega

theorem loopIdx_terminates (c len : Nat) (hc : 1 ≤ c) : len ≤ loopIdx c len len := by
  have h1 := loopIdx_min_le c len len
  have h2 : len ≤ len * c := Nat.le_mul_of_pos_right len hc
  omega

theorem analyzeAllParallel_eq {E R : Type} (c : Nat) (hc : 1 ≤ c)
    (l : List (Except E R)) : analyzeAllParallel c l = analyzeAll l := by
  unfold analyzeAllParallel
  have h1 : ∀ chunk : List (Except E R),
      (chunk.map exceptToOption).filterMap id = chunk.filterMap exceptToOption := by
    intro chunk
    rw [List.filterMap_map]
    rfl
  simp only [h1]
  rw [analyzeAll_eq_filterMap]
  have h2 : ∀ L : List (List (Except E R)),
      (L.map (List.filterMap exceptToOption)).flatten = L.flatten.filterMap exceptToOption := by
    intro L
    induction L with
    | nil => rfl
    | cons a L ih =>
      simp only [List.map_cons, List.flatten_cons, List.filterMap_append, ih]
  rw [h2]
  have h3 : (chunksOf c l).flatten = l := by
    have := chunksGo_flatten c hc l l.length 0 (by omega)
    simpa [chunksOf] using this
  rw [h3]

/-- C7 (confirmed): the batch coordinator never raises for
per-repository failures.  Sequentially, a failing repository is skipped
and processing continues; in bounded-parallel mode (any concurrency at
least 1) the null-filtered chunked result equals the sequential one, so
a failure cancels nothing; concretely, concurrency 2 over five
repositories whose third fails yields the four results in chunk order
1, 2, 4, 5. -/
theorem batch_failures_filtered :
    (∀ (E R : Type) (pre post : List (Except E R)) (e : E),
      analyzeAll (pre ++ Except.error e :: post) = analyzeAll pre ++ analyzeAll post) ∧
    (∀ (E R : Type) (c : Nat), 1 ≤ c → ∀ outcomes : List (Except E R),
      analyzeAllParallel c outcomes = analyzeAll outcomes) ∧
    analyzeAllParallel 2
        [Except.ok 1, Except.ok 2, Except.error (), Except.ok 4, Except.ok 5] =
      ([1, 2, 4, 5] : List Nat) := by
  refine ⟨?_, ?_, by decide⟩
  · intro E R pre post e
    simp [analyzeAll_eq_filterMap, List.filterMap_append, List.filterMap_cons, exceptToOption]
  · intro E R c hc outcomes
    exact analyzeAllParallel_eq c hc outcomes

/-- C7 witness: the parallel coordinator at concurrency 2 agrees with
the sequential one on the five-element batch with a failing third
member. -/
theorem batch_failures_filtered_witness :
    analyzeAllParallel 2
        [Except.ok 1, Except.ok 2, Except.error (), Except.ok 4, Except.ok 5] =
      analyzeAll [Except.ok 1, Except.ok 2, Except.error (), Except.ok 4, Except.ok 5] :=
  batch_failures_filtered.2.1 Unit Nat 2 (by decide) _

/-- C10 (confirmed): for concurrency at least 1 the chunk-splitting
loop terminates (after `length` iterations the index has passed the
length) and yields consecutive chunks of size at most `concurrency`,
all but the last of size exactly `concurrency`, concatenating back to
the input; with concurrency 0 and a nonempty list the index never
advances and the loop guard stays true forever. -/
theorem chunk_loop_correct :
    (∀ (α : Type) (c : Nat) (l : List α), 1 ≤ c →
      (chunksOf c l).flatten = l ∧
      (∀ ch ∈ chunksOf c l, ch.length ≤ c) ∧
      (∀ ch ∈ (chunksOf c l).dropLast, ch.length = c) ∧
      l.length ≤ loopIdx c l.length l.length) ∧
    (∀ len : Nat, 0 < len → ∀ n : Nat, loopIdx 0 len n = 0 ∧ loopIdx 0 len n < len) := by
  constructor
  · intro α c l hc
    refine ⟨?_, ?_, ?_, loopIdx_terminates c l.length hc⟩
    · have := chunksGo_flatten c hc l l.length 0 (by omega)
      simpa [chunksOf] using this
    · intro ch hch
      exact chunksGo_length_le c l l.length 0 ch hch
    · intro ch hch
      exact chunksGo_dropLast_full c l l.length 0 ch hch
  · intro len hlen n
    refine ⟨loopIdx_zero_conc len n, ?_⟩
    rw [loopIdx_zero_conc len n]
    omega

/-- C10 witness: concurrency 2 on a five-element list, and the stuck
index at concurrency 0. -/
theorem chunk_loop_correct_witness :
    (chunksOf 2 [1, 2, 3, 4, 5]).flatten = [1, 2, 3, 4, 5] ∧ loopIdx 0 1 7 = 0 :=
  ⟨(chunk_loop_correct.1 Nat 2 [1, 2, 3, 4, 5] (by decide)).1,
   (chunk_loop_correct.2 1 (by decide) 7).1⟩

theorem scanNumWordF_eq_nil {word : List Char} :
    ∀ (fuel : Nat) (l : List Char),
      (¬ ∃ pre ds rest, l = pre ++ (ds ++ (word ++ rest)) ∧ ds ≠ [] ∧
        ∀ c ∈ ds, c.isDigit = true) →
      scanNumWordF word fuel l = [] := by
  intro fuel
  induction fuel with
  | zero => intro l _; rfl
  | succ fuel ih =>
    intro l h
    cases l with
    | nil => rfl
    | cons c t =>
      have hlift : ¬ ∃ pre ds rest, t = pre ++ (ds ++ (word ++ rest)) ∧ ds ≠ [] ∧
          ∀ x ∈ ds, x.isDigit = true := by
        rintro ⟨pre, ds, rest, rfl, hds, hdig⟩
        exact h ⟨c :: pre, ds, rest, by simp, hds, hdig⟩
      unfold scanNumWordF
      split
      case isTrue hd =>
        cases hm : matchLit word ((c :: t).dropWhile Char.isDigit) with
        | some after =>
          exfalso
          apply h
          refine ⟨[], (c :: t).takeWhile Char.isDigit, after, ?_, ?_, ?_⟩
          · have h1 : (c :: t).takeWhile Char.isDigit ++ (c :: t).dropWhile Char.isDigit
                = c :: t := List.takeWhile_append_dropWhile Char.isDigit (c :: t)
            have h2 := (matchLit_eq_some_iff _ _ _).mp hm
            rw [List.nil_append, ← h2]
            exact h1.symm
          · simp [List.takeWhile_cons, hd]
          · intro x hx
            exact List.mem_takeWhile_imp hx
        | none =>
          simp only [hm]
          exact ih t hlift
      case isFalse hd => exact ih t hlift

/-- C9 (confirmed): for the spec's example blob the scanner sums 3
insertions and 1 deletion, and a blob containing no occurrence of a
digit run followed by the insertion (resp. deletion) word yields 0,
never an absent value. -/
theorem shortstat_parsing :
    parseAdditions ("1 file changed, 3 insertions(+), 1 deletion(-)".data) = 3 ∧
    parseDeletions ("1 file changed, 3 insertions(+), 1 deletion(-)".data) = 1 ∧
    (∀ blob : List Char,
      (¬ ∃ pre ds rest, blob = pre ++ (ds ++ (insertionLit ++ rest)) ∧ ds ≠ [] ∧
        ∀ c ∈ ds, c.isDigit = true) → parseAdditions blob = 0) ∧
    (∀ blob : List Char,
      (¬ ∃ pre ds rest, blob = pre ++ (ds ++ (deletionLit ++ rest)) ∧ ds ≠ [] ∧
        ∀ c ∈ ds, c.isDigit = true) → parseDeletions blob = 0) := by
  refine ⟨by decide, by decide, ?_, ?_⟩
  · intro blob h
    unfold parseAdditions scanNumWord
    rw [scanNumWordF_eq_nil _ blob h]
    rfl
  · intro blob h
    unfold parseDeletions scanNumWord
    rw [scanNumWordF_eq_nil _ blob h]
    rfl

/-- C9 witness: the empty blob has no occurrences and yields 0. -/
theorem shortstat_parsing_witness : parseAdditions [] = 0 :=
  shortstat_parsing.2.2.1 []
    (by rintro ⟨pre, ds, rest, h, hds, -⟩; simp [insertionLit] at h)

end GitStats
